import Mathlib

set_option maxHeartbeats 1000000

/-! Shallow embedding of the Tamil page-prediction engine.

The source has two matchers. The embedding matcher (app.py,
TamilPagePredictor) flattens the catalog into (page_name, keyword)
candidate pairs, obtains one similarity value per candidate from an
external model, ranks candidate indices with a reversed ascending
argsort and keeps the first five. The lexical matcher (app_simple.py,
SimpleTamilPagePredictor) builds two insertion-ordered dictionaries,
scores pages by substring overlap between query words and keywords,
and returns the five best pages after a stable descending sort.
Python dictionaries are modelled as association lists that preserve
insertion order; the external similarity model is modelled by an
arbitrary list of rational similarity values, one per candidate. -/

/-- Character-list comparison: the first list occurs at the start of the
second one.  Building block for the substring test. -/
def listStartsWith : List Char → List Char → Bool
  | [], _ => true
  | _ :: _, [] => false
  | a :: as, b :: bs => a == b && listStartsWith as bs

/-- Model of the Python test `a in b` on strings: the first character list
occurs contiguously inside the second; an empty list occurs in every list. -/
def isSubstr (p : List Char) : List Char → Bool
  | [] => listStartsWith p []
  | c :: ts => listStartsWith p (c :: ts) || isSubstr p ts

/-- Model of Python str.lower, applied character by character. -/
def lowerStr (s : String) : String := String.mk (s.toList.map Char.toLower)

/-- `substrOf a b` models the Python expression `a in b` on strings. -/
def substrOf (a b : String) : Bool := isSubstr a.toList b.toList

/-- Whitespace tokenizer: model of Python str.split() with no argument.
The first argument accumulates the current token in reverse. -/
def splitWsAux : List Char → List Char → List (List Char)
  | acc, [] => if acc.isEmpty then [] else [acc.reverse]
  | acc, c :: cs =>
    if c.isWhitespace then
      if acc.isEmpty then splitWsAux [] cs else acc.reverse :: splitWsAux [] cs
    else
      splitWsAux (c :: acc) cs

/-- Model of `query_text.lower().split()` from both predict_page bodies. -/
def queryWords (q : String) : List String :=
  (splitWsAux [] (lowerStr q).toList).map (fun l => String.mk l)

/-- The scoring test of app_simple.py line 52:
`word in keyword.lower() or keyword.lower() in word`
(query words are already lower-cased). -/
def wordMatch (w kw : String) : Bool :=
  substrOf w (lowerStr kw) || substrOf (lowerStr kw) w

/-- One record of the `features` list of the catalog document.  The
page_name field is optional so that a malformed record (missing name,
a KeyError in Python) can be expressed; description defaults to the
empty string as with `feature.get` in the source. -/
structure RawFeature where
  page_name : Option String
  keywords : List String
  description : String
deriving DecidableEq, Repr

/-- The two dictionaries built by prepare_keyword_index of app_simple.py,
as insertion-ordered association lists. -/
structure LexIndex where
  keyword_to_page : List (String × List String)
  page_keywords : List (String × List String)
deriving DecidableEq, Repr

/-- One entry of the result list returned by predict_page. -/
structure MatchResult where
  page_name : String
  keyword : String
  similarity_score : ℚ
  description : String
deriving DecidableEq, Repr

/-- Dictionary read, first matching key wins (Python `d[k]` / `k in d`). -/
def alookup {α : Type} : List (String × α) → String → Option α
  | [], _ => none
  | (k, v) :: m, key => if k = key then some v else alookup m key

/-- Dictionary write `d[k] = v`: overwrite in place keeping the original
position when the key exists, append at the end otherwise, exactly the
insertion-order behaviour of a Python dict. -/
def aset {α : Type} : List (String × α) → String → α → List (String × α)
  | [], key, v => [(key, v)]
  | (k, w) :: m, key, v => if k = key then (key, v) :: m else (k, w) :: aset m key v

/-- prepare_candidates of app.py: flatten every (page_name, keyword) pair in
catalog order; a record without page_name raises (KeyError), modelled as
an error value, so no candidate list is published. -/
def prepareCandidates : List RawFeature → Except String (List (String × String))
  | [] => .ok []
  | f :: fs =>
    match f.page_name with
    | none => .error "KeyError: page_name"
    | some n =>
      match prepareCandidates fs with
      | .error e => .error e
      | .ok rest => .ok ((f.keywords.map (fun k => (n, k))) ++ rest)

/-- get_page_description: linear scan of the features for the page name. -/
def getPageDescription (feats : List RawFeature) (p : String) : String :=
  match feats.find? (fun f => f.page_name == some p) with
  | some f => f.description
  | none => ""

/-- Stable insertion step for the model of np.argsort: the new pair goes
before the first pair whose similarity is at least as large. -/
def insertAscPair (x : Nat × ℚ) : List (Nat × ℚ) → List (Nat × ℚ)
  | [] => [x]
  | y :: ys => if x.2 ≤ y.2 then x :: y :: ys else y :: insertAscPair x ys

/-- Stable ascending sort by similarity value, the deterministic model of
np.argsort on the similarity row. -/
def sortAscPairs : List (Nat × ℚ) → List (Nat × ℚ)
  | [] => []
  | x :: xs => insertAscPair x (sortAscPairs xs)

/-- Pair every similarity value with its candidate index, starting at n. -/
def enumQ : Nat → List ℚ → List (Nat × ℚ)
  | _, [] => []
  | n, s :: ss => (n, s) :: enumQ (n + 1) ss

/-- app.py line 56: `np.argsort(similarities[0])[::-1][:5]` — ascending
argsort, reversed, first five indices. -/
def topIndices (sims : List ℚ) : List Nat :=
  (((sortAscPairs (enumQ 0 sims)).map Prod.fst).reverse).take 5

/-- predict_page of app.py given the candidate list and one similarity
value per candidate (the external encoder and cosine_similarity are
outside the repository; the ranking below is the repository code). -/
def embPredict (cands : List (String × String)) (feats : List RawFeature)
    (sims : List ℚ) : List MatchResult :=
  (topIndices sims).map (fun i =>
    { page_name := (cands.getD i ("", "")).1
      keyword := (cands.getD i ("", "")).2
      similarity_score := sims.getD i 0
      description := getPageDescription feats (cands.getD i ("", "")).1 })

/-- Inner statement of prepare_keyword_index: append the page name to the
(possibly new) entry of one keyword. -/
def addKw (m : List (String × List String)) (kw pg : String) :
    List (String × List String) :=
  match alookup m kw with
  | none => m ++ [(kw, [pg])]
  | some ps => aset m kw (ps ++ [pg])

/-- Per-feature step of prepare_keyword_index. -/
def addFeature (ix : LexIndex) (n : String) (kws : List String) : LexIndex :=
  { keyword_to_page := kws.foldl (fun m kw => addKw m kw n) ix.keyword_to_page
    page_keywords := aset ix.page_keywords n kws }

/-- Loop of prepare_keyword_index over the features list; a record without
page_name raises (KeyError), modelled as an error value. -/
def prepareKeywordIndexAux (ix : LexIndex) : List RawFeature → Except String LexIndex
  | [] => .ok ix
  | f :: fs =>
    match f.page_name with
    | none => .error "KeyError: page_name"
    | some n => prepareKeywordIndexAux (addFeature ix n f.keywords) fs

/-- prepare_keyword_index of app_simple.py, starting from empty dictionaries. -/
def prepareKeywordIndex (feats : List RawFeature) : Except String LexIndex :=
  prepareKeywordIndexAux { keyword_to_page := [], page_keywords := [] } feats

/-- Score increment of app_simple.py lines 53-56: create the entry with 0
and add 1, so a fresh page enters the dictionary with score 1. -/
def bumpPage (m : List (String × Nat)) (p : String) : List (String × Nat) :=
  match alookup m p with
  | none => m ++ [(p, 1)]
  | some s => aset m p (s + 1)

/-- One (query word, keyword entry) step of the scoring loop: when the word
matches the keyword, every owning page listed for the keyword is bumped. -/
def scoreWordKw (m : List (String × Nat)) (w : String) (e : String × List String) :
    List (String × Nat) :=
  if wordMatch w e.1 then e.2.foldl bumpPage m else m

/-- The full scoring double loop of predict_page (app_simple.py lines 50-56):
for every query word, for every distinct keyword, bump owning pages. -/
def pageScores (ktp : List (String × List String)) (qws : List String) :
    List (String × Nat) :=
  qws.foldl (fun m w => ktp.foldl (fun m2 e => scoreWordKw m2 w e) m) []

/-- Lines 58-60: when no match was recorded, fall back to every known page
with score zero, in page_keywords insertion order. -/
def effScores (ix : LexIndex) (qws : List String) : List (String × Nat) :=
  let ps := pageScores ix.keyword_to_page qws
  if ps.isEmpty then ix.page_keywords.map (fun e => (e.1, 0)) else ps

/-- Stable insertion for the model of Python sorted(..., reverse=True):
the new pair goes before the first pair whose score is not larger. -/
def insertDesc (x : String × Nat) : List (String × Nat) → List (String × Nat)
  | [] => [x]
  | y :: ys => if y.2 ≤ x.2 then x :: y :: ys else y :: insertDesc x ys

/-- Stable descending sort by score (Python sorted is stable, and
reverse=True keeps the input order among equal keys). -/
def sortDesc : List (String × Nat) → List (String × Nat)
  | [] => []
  | x :: xs => insertDesc x (sortDesc xs)

/-- Matched-keyword selection of app_simple.py lines 67-75: the first
keyword of the page such that SOME QUERY WORD OCCURS IN THE KEYWORD
(one direction only), else — via the Python falsiness test on the empty
string — the first keyword of the page when there is one. -/
def matchedKeyword (qws : List String) (kws : List String) : String :=
  let mk :=
    match kws.find? (fun k => qws.any (fun w => substrOf w (lowerStr k))) with
    | some k => k
    | none => ""
  if mk = "" ∧ kws ≠ [] then kws.headD "" else mk

/-- predict_page of app_simple.py given a prepared index: score, stable
descending sort, first five pages, then shape each result. -/
def lexPredict (feats : List RawFeature) (ix : LexIndex) (q : String) :
    List MatchResult :=
  let qws := queryWords q
  ((sortDesc (effScores ix qws)).take 5).map (fun e =>
    { page_name := e.1
      keyword := matchedKeyword qws ((alookup ix.page_keywords e.1).getD [])
      similarity_score := (e.2 : ℚ) / ((max qws.length 1 : Nat) : ℚ)
      description := getPageDescription feats e.1 })

/-- Spec-side count: how many keywords of a list match one query word
in either containment direction. -/
def countMatches (w : String) (kws : List String) : Nat :=
  (kws.filter (fun k => wordMatch w k)).length

/-- Spec-side scoring formula: the number of pairs (query word position,
keyword occurrence belonging to the page) in substring containment. -/
def rawHits (feats : List RawFeature) (p : String) (qws : List String) : Nat :=
  (qws.map (fun w =>
    ((feats.filter (fun f => f.page_name == some p)).map
      (fun f => countMatches w f.keywords)).sum)).sum

/-- Spec-side matched-keyword rule: the first keyword of the page sharing a
word with the query in EITHER containment direction, else the first
keyword of the page. -/
def specMatchedKeyword (qws kws : List String) : String :=
  match kws.find? (fun k => qws.any (fun w => wordMatch w k)) with
  | some k => k
  | none => kws.headD ""

/-- Per-word contribution of the keyword dictionary to the score of page p. -/
def wSum (ktp : List (String × List String)) (w : String) (p : String) : Nat :=
  ((ktp.filter (fun e => wordMatch w e.1)).map (fun e => e.2.count p)).sum

/-- Total hit count of page p as read off the keyword dictionary. -/
def hitsVia (ktp : List (String × List String)) (p : String) (qws : List String) : Nat :=
  (qws.map (fun w => wSum ktp w p)).sum

/-- Order produced by the stable ascending argsort model: smaller
similarity first, equal similarities in ascending index order. -/
def pairRel (p q : Nat × ℚ) : Prop := p.2 < q.2 ∨ (p.2 = q.2 ∧ p.1 < q.1)

/-- One-page test catalog: page p with the single keyword k. -/
def kbOne : List RawFeature :=
  [{ page_name := some "p", keywords := ["k"], description := "" }]

/-- The index the lexical loader builds from kbOne. -/
def ixOne : LexIndex :=
  { keyword_to_page := [("k", ["p"])], page_keywords := [("p", ["k"])] }

/-- Six-page test catalog with pairwise non-overlapping keywords. -/
def kbSix : List RawFeature :=
  [{ page_name := some "p1", keywords := ["aaa"], description := "" },
   { page_name := some "p2", keywords := ["bbb"], description := "" },
   { page_name := some "p3", keywords := ["ccc"], description := "" },
   { page_name := some "p4", keywords := ["ddd"], description := "" },
   { page_name := some "p5", keywords := ["eee"], description := "" },
   { page_name := some "p6", keywords := ["fff"], description := "" }]

/-- The index the lexical loader builds from kbSix. -/
def ixSix : LexIndex :=
  { keyword_to_page := [("aaa", ["p1"]), ("bbb", ["p2"]), ("ccc", ["p3"]),
                        ("ddd", ["p4"]), ("eee", ["p5"]), ("fff", ["p6"])]
    page_keywords := [("p1", ["aaa"]), ("p2", ["bbb"]), ("p3", ["ccc"]),
                      ("p4", ["ddd"]), ("p5", ["eee"]), ("p6", ["fff"])] }

/-- Test catalog whose first page has an empty keyword list. -/
def kbUnused : List RawFeature :=
  [{ page_name := some "u", keywords := [], description := "" },
   { page_name := some "p", keywords := ["ab"], description := "" }]

/-- The index the lexical loader builds from kbUnused. -/
def ixUnused : LexIndex :=
  { keyword_to_page := [("ab", ["p"])]
    page_keywords := [("u", []), ("p", ["ab"])] }

/-- Test catalog with one page holding two keywords. -/
def kbTwoKw : List RawFeature :=
  [{ page_name := some "p", keywords := ["zz", "ab"], description := "" }]

/-- The index the lexical loader builds from kbTwoKw. -/
def ixTwoKw : LexIndex :=
  { keyword_to_page := [("zz", ["p"]), ("ab", ["p"])]
    page_keywords := [("p", ["zz", "ab"])] }

/-- Five-page test catalog where a query can match exactly one page. -/
def kbFive : List RawFeature :=
  [{ page_name := some "q1", keywords := ["aa"], description := "" },
   { page_name := some "q2", keywords := ["bb"], description := "" },
   { page_name := some "q3", keywords := ["cc"], description := "" },
   { page_name := some "q4", keywords := ["dd"], description := "" },
   { page_name := some "q5", keywords := ["ee"], description := "" }]

/-- The index the lexical loader builds from kbFive. -/
def ixFive : LexIndex :=
  { keyword_to_page := [("aa", ["q1"]), ("bb", ["q2"]), ("cc", ["q3"]),
                        ("dd", ["q4"]), ("ee", ["q5"])]
    page_keywords := [("q1", ["aa"]), ("q2", ["bb"]), ("q3", ["cc"]),
                      ("q4", ["dd"]), ("q5", ["ee"])] }

/-- A score of n as the dictionary stores it: absent when n = 0. -/
def optCount (n : Nat) : Option Nat := if n = 0 then none else some n

/- ---------------------------------------------------------------- -/
/- Association-list lemmas. -/

theorem optCount_getD (n : Nat) : (optCount n).getD 0 = n := by
  by_cases h : n = 0 <;> simp [optCount, h]

theorem alookup_aset {α : Type} (m : List (String × α)) (k : String) (v : α) (key : String) :
    alookup (aset m k v) key = if k = key then some v else alookup m key := by
  induction m with
  | nil => by_cases hk : k = key <;> simp [aset, alookup, hk]
  | cons e m ih =>
    obtain ⟨k2, v2⟩ := e
    by_cases h : k2 = k
    · subst h
      by_cases hk : k2 = key <;> simp [aset, alookup, hk]
    · by_cases hk : k2 = key
      · subst hk
        have hne : ¬ k = k2 := fun hh => h hh.symm
        simp [aset, alookup, h, hne]
      · simp [aset, alookup, h, hk, ih]

theorem alookup_append_some {α : Type} (m l : List (String × α)) (key : String) (v : α)
    (h : alookup m key = some v) : alookup (m ++ l) key = some v := by
  induction m with
  | nil => cases h
  | cons e m ih =>
    obtain ⟨k2, v2⟩ := e
    by_cases hk : k2 = key
    · simp only [alookup, hk, if_pos rfl] at h ⊢
      · exact h
    · simp only [List.cons_append, alookup, hk, if_neg hk] at h ⊢
      exact ih h

theorem alookup_append_none {α : Type} (m l : List (String × α)) (key : String)
    (h : alookup m key = none) : alookup (m ++ l) key = alookup l key := by
  induction m with
  | nil => rfl
  | cons e m ih =>
    obtain ⟨k2, v2⟩ := e
    by_cases hk : k2 = key
    · simp [alookup, hk] at h
    · simp only [List.cons_append, alookup, if_neg hk] at h ⊢
      exact ih h

theorem alookup_none_iff {α : Type} (m : List (String × α)) (key : String) :
    alookup m key = none ↔ ∀ e ∈ m, e.1 ≠ key := by
  induction m with
  | nil => simp [alookup]
  | cons e m ih =>
    obtain ⟨k2, v2⟩ := e
    by_cases hk : k2 = key <;> simp [alookup, hk, ih]

theorem alookup_mem {α : Type} (m : List (String × α)) (key : String) (v : α)
    (h : alookup m key = some v) : (key, v) ∈ m := by
  induction m with
  | nil => cases h
  | cons e m ih =>
    obtain ⟨k2, v2⟩ := e
    by_cases hk : k2 = key
    · subst hk
      have h2 : v2 = v := by simpa [alookup] using h
      subst h2
      exact List.mem_cons_self _ _
    · simp only [alookup, if_neg hk] at h
      exact List.mem_cons_of_mem _ (ih h)

theorem mem_aset {α : Type} (m : List (String × α)) (k : String) (v : α) :
    ∀ e ∈ aset m k v, e ∈ m ∨ e = (k, v) := by
  induction m with
  | nil => intro e he; simp [aset] at he; right; exact he
  | cons e2 m ih =>
    obtain ⟨k2, v2⟩ := e2
    intro e he
    by_cases h : k2 = k
    · subst h
      simp only [aset, if_pos rfl] at he
      rcases List.mem_cons.mp he with rfl | hm
      · right; rfl
      · left; exact List.mem_cons_of_mem _ hm
    · simp only [aset, if_neg h] at he
      rcases List.mem_cons.mp he with rfl | hm
      · left; exact List.mem_cons_self _ _
      · rcases ih e hm with hm2 | hm2
        · left; exact List.mem_cons_of_mem _ hm2
        · right; exact hm2

theorem aset_length_le {α : Type} (m : List (String × α)) (k : String) (v : α) :
    m.length ≤ (aset m k v).length := by
  induction m with
  | nil => simp [aset]
  | cons e m ih =>
    obtain ⟨k2, v2⟩ := e
    by_cases h : k2 = k <;> simp [aset, h]
    exact ih

/-- Generic preservation of a predicate along a left fold. -/
theorem foldl_preserve {α β : Type} (P : β → Prop) (f : β → α → β) :
    ∀ (l : List α) (b : β), P b → (∀ b2 a, a ∈ l → P b2 → P (f b2 a)) →
      P (l.foldl f b) := by
  intro l
  induction l with
  | nil => intro b hb _; exact hb
  | cons a l ih =>
    intro b hb hf
    exact ih (f b a) (hf b a (List.mem_cons_self a l) hb)
      (fun b2 a2 ha2 => hf b2 a2 (List.mem_cons_of_mem a ha2))

/- ---------------------------------------------------------------- -/
/- Characterization of the scoring pass. -/

theorem bumpPage_lookup (m : List (String × Nat)) (p key : String) :
    alookup (bumpPage m p) key =
      if p = key then some ((alookup m p).getD 0 + 1) else alookup m key := by
  by_cases hk : p = key
  · subst hk
    cases h : alookup m p with
    | none =>
      simp only [bumpPage, h]
      rw [alookup_append_none m _ _ h]
      simp [alookup]
    | some s =>
      simp only [bumpPage, h]
      rw [alookup_aset]
      simp
  · cases h : alookup m p with
    | none =>
      simp only [bumpPage, h]
      cases h2 : alookup m key with
      | none => rw [alookup_append_none m _ _ h2]; simp [alookup, hk]
      | some w => rw [alookup_append_some m _ _ _ h2]; simp [hk]
    | some s =>
      simp only [bumpPage, h]
      rw [alookup_aset]
      simp [hk]

theorem foldl_bumpPage_lookup (ps : List String) :
    ∀ (m : List (String × Nat)) (g : String → Nat),
      (∀ p, alookup m p = optCount (g p)) →
      ∀ p, alookup (ps.foldl bumpPage m) p = optCount (g p + ps.count p) := by
  induction ps with
  | nil => intro m g hg p; simpa using hg p
  | cons q ps ih =>
    intro m g hg p
    have hg2 : ∀ p2, alookup (bumpPage m q) p2 =
        optCount (if p2 = q then g p2 + 1 else g p2) := by
      intro p2
      rw [bumpPage_lookup]
      by_cases h : q = p2
      · subst h
        rw [hg q, optCount_getD]
        simp [optCount]
      · have h2 : ¬ p2 = q := fun hh => h hh.symm
        rw [if_neg h, if_neg h2]
        exact hg p2
    have hrec := ih (bumpPage m q) _ hg2 p
    rw [List.foldl_cons, hrec]
    by_cases h : p = q
    · subst h
      have hc : (p :: ps).count p = ps.count p + 1 := by simp
      rw [if_pos rfl, hc]
      exact congrArg optCount (by omega)
    · have h2 : ¬ q = p := fun hh => h hh.symm
      have hc : (q :: ps).count p = ps.count p := by
        simp [List.count_cons, h, h2]
      rw [if_neg h, hc]

theorem wSum_cons (e : String × List String) (ktp : List (String × List String))
    (w p : String) :
    wSum (e :: ktp) w p = (if wordMatch w e.1 then e.2.count p else 0) + wSum ktp w p := by
  cases h : wordMatch w e.1 <;> simp [wSum, List.filter_cons, h]

theorem foldl_scoreWordKw_lookup (ktp : List (String × List String)) (w : String) :
    ∀ (m : List (String × Nat)) (g : String → Nat),
      (∀ p, alookup m p = optCount (g p)) →
      ∀ p, alookup (ktp.foldl (fun m2 e => scoreWordKw m2 w e) m) p =
        optCount (g p + wSum ktp w p) := by
  induction ktp with
  | nil => intro m g hg p; simpa [wSum] using hg p
  | cons e ktp ih =>
    intro m g hg p
    rw [List.foldl_cons]
    cases hm : wordMatch w e.1 with
    | false =>
      have hs : scoreWordKw m w e = m := by simp [scoreWordKw, hm]
      rw [hs]
      rw [ih m g hg p, wSum_cons]
      simp [hm]
    | true =>
      have hs : scoreWordKw m w e = e.2.foldl bumpPage m := by simp [scoreWordKw, hm]
      rw [hs]
      have hg2 := foldl_bumpPage_lookup e.2 m g hg
      rw [ih _ _ hg2 p, wSum_cons]
      simp only [hm, if_pos]
      exact congrArg optCount (by omega)

theorem foldl_words_lookup (ktp : List (String × List String)) (qws : List String) :
    ∀ (m : List (String × Nat)) (g : String → Nat),
      (∀ p, alookup m p = optCount (g p)) →
      ∀ p, alookup (qws.foldl (fun m w => ktp.foldl (fun m2 e => scoreWordKw m2 w e) m) m) p =
        optCount (g p + hitsVia ktp p qws) := by
  induction qws with
  | nil => intro m g hg p; simpa [hitsVia] using hg p
  | cons w qws ih =>
    intro m g hg p
    rw [List.foldl_cons]
    have h1 := foldl_scoreWordKw_lookup ktp w m g hg
    rw [ih _ _ h1 p]
    have hv : hitsVia ktp p (w :: qws) = wSum ktp w p + hitsVia ktp p qws := by
      simp [hitsVia]
    rw [hv]
    exact congrArg optCount (by omega)

/-- The scoring dictionary holds exactly the pages with at least one hit,
each with its exact hit count as read off the keyword dictionary. -/
theorem pageScores_lookup (ktp : List (String × List String)) (qws : List String)
    (p : String) :
    alookup (pageScores ktp qws) p = optCount (hitsVia ktp p qws) := by
  have h0 : ∀ p2, alookup ([] : List (String × Nat)) p2 = optCount 0 := by
    intro p2; simp [alookup, optCount]
  have := foldl_words_lookup ktp qws [] (fun _ => 0) h0 p
  simpa [pageScores] using this

theorem optCount_eq_none_iff (n : Nat) : optCount n = none ↔ n = 0 := by
  by_cases h : n = 0 <;> simp [optCount, h]

/- ---------------------------------------------------------------- -/
/- Key distinctness and name provenance of the scoring dictionary. -/

theorem bumpPage_nodupKeys (m : List (String × Nat)) (p : String)
    (h : m.Pairwise (fun a b => a.1 ≠ b.1)) :
    (bumpPage m p).Pairwise (fun a b => a.1 ≠ b.1) := by
  cases hl : alookup m p with
  | none =>
    simp only [bumpPage, hl]
    rw [List.pairwise_append]
    refine ⟨h, List.pairwise_singleton _ _, ?_⟩
    intro a ha b hb
    have := (alookup_none_iff m p).mp hl a ha
    rcases List.mem_singleton.mp hb with rfl
    exact this
  | some s =>
    simp only [bumpPage, hl]
    clear hl
    induction m with
    | nil => simp [aset]
    | cons e m ih =>
      obtain ⟨k2, v2⟩ := e
      rcases List.pairwise_cons.mp h with ⟨hhead, htail⟩
      by_cases hk : k2 = p
      · subst hk
        simp only [aset, if_pos rfl]
        exact List.pairwise_cons.mpr ⟨hhead, htail⟩
      · simp only [aset, if_neg hk]
        refine List.pairwise_cons.mpr ⟨?_, ih htail⟩
        intro b hb
        rcases mem_aset m p (s + 1) b hb with hm | rfl
        · exact hhead b hm
        · exact hk

theorem pageScores_nodupKeys (ktp : List (String × List String)) (qws : List String) :
    (pageScores ktp qws).Pairwise (fun a b => a.1 ≠ b.1) := by
  simp only [pageScores]
  refine foldl_preserve (fun m => m.Pairwise (fun a b => a.1 ≠ b.1))
      (fun m w => ktp.foldl (fun m2 e => scoreWordKw m2 w e) m) qws []
      List.Pairwise.nil ?_
  intro m w _ hm
  refine foldl_preserve (fun m2 => m2.Pairwise (fun a b => a.1 ≠ b.1))
      (fun m2 e => scoreWordKw m2 w e) ktp m hm ?_
  intro m2 e _ hm2
  cases hmatch : wordMatch w e.1 with
  | false => simpa [scoreWordKw, hmatch] using hm2
  | true =>
    simp only [scoreWordKw, hmatch, if_pos]
    refine foldl_preserve (fun m3 => m3.Pairwise (fun a b => a.1 ≠ b.1))
        bumpPage e.2 m2 hm2 ?_
    intro m3 p _ hm3
    exact bumpPage_nodupKeys m3 p hm3

theorem alookup_of_mem_nodup {α : Type} (m : List (String × α))
    (h : m.Pairwise (fun a b => a.1 ≠ b.1)) (k : String) (v : α)
    (hm : (k, v) ∈ m) : alookup m k = some v := by
  induction m with
  | nil => cases hm
  | cons e m ih =>
    obtain ⟨k2, v2⟩ := e
    rcases List.pairwise_cons.mp h with ⟨hhead, htail⟩
    rcases List.mem_cons.mp hm with heq | hm2
    · cases heq
      simp [alookup]
    · have hne : k2 ≠ k := hhead (k, v) hm2
      simp only [alookup, if_neg hne]
      exact ih htail hm2

/-- Every page name entering the scoring dictionary comes from the pages
list of some keyword entry. -/
theorem pageScores_names (ktp : List (String × List String)) (qws : List String)
    (Q : String → Prop) (hktp : ∀ e ∈ ktp, ∀ p ∈ e.2, Q p) :
    ∀ x ∈ pageScores ktp qws, Q x.1 := by
  simp only [pageScores]
  refine foldl_preserve (fun m => ∀ x ∈ m, Q x.1)
      (fun m w => ktp.foldl (fun m2 e => scoreWordKw m2 w e) m) qws []
      (fun x hx => absurd hx (List.not_mem_nil x)) ?_
  intro m w _ hm
  refine foldl_preserve (fun m2 => ∀ x ∈ m2, Q x.1)
      (fun m2 e => scoreWordKw m2 w e) ktp m hm ?_
  intro m2 e he hm2
  cases hmatch : wordMatch w e.1 with
  | false => simpa [scoreWordKw, hmatch] using hm2
  | true =>
    simp only [scoreWordKw, hmatch, if_pos]
    refine foldl_preserve (fun m3 => ∀ x ∈ m3, Q x.1) bumpPage e.2 m2 hm2 ?_
    intro m3 p hp hm3
    intro x hx
    have hQp : Q p := hktp e he p hp
    cases hl : alookup m3 p with
    | none =>
      simp only [bumpPage, hl] at hx
      rcases List.mem_append.mp hx with hx2 | hx2
      · exact hm3 x hx2
      · rcases List.mem_singleton.mp hx2 with rfl
        exact hQp
    | some s =>
      simp only [bumpPage, hl] at hx
      rcases mem_aset m3 p (s + 1) x hx with hx2 | rfl
      · exact hm3 x hx2
      · exact hQp

/- ---------------------------------------------------------------- -/
/- Sorting lemmas: permutation, stability, order. -/

theorem insertDesc_perm (x : String × Nat) (l : List (String × Nat)) :
    List.Perm (insertDesc x l) (x :: l) := by
  induction l with
  | nil => exact List.Perm.refl _
  | cons y ys ih =>
    by_cases h : y.2 ≤ x.2
    · simp [insertDesc, h]
    · simp only [insertDesc, if_neg h]
      exact (List.Perm.cons y ih).trans (List.Perm.swap x y ys)

theorem sortDesc_perm (l : List (String × Nat)) : List.Perm (sortDesc l) l := by
  induction l with
  | nil => exact List.Perm.refl _
  | cons x xs ih =>
    exact (insertDesc_perm x (sortDesc xs)).trans (List.Perm.cons x ih)

theorem insertAscPair_perm (x : Nat × ℚ) (l : List (Nat × ℚ)) :
    List.Perm (insertAscPair x l) (x :: l) := by
  induction l with
  | nil => exact List.Perm.refl _
  | cons y ys ih =>
    by_cases h : x.2 ≤ y.2
    · simp [insertAscPair, h]
    · simp only [insertAscPair, if_neg h]
      exact (List.Perm.cons y ih).trans (List.Perm.swap x y ys)

theorem sortAscPairs_perm (l : List (Nat × ℚ)) : List.Perm (sortAscPairs l) l := by
  induction l with
  | nil => exact List.Perm.refl _
  | cons x xs ih =>
    exact (insertAscPair_perm x (sortAscPairs xs)).trans (List.Perm.cons x ih)

theorem insertDesc_eq_cons (x : String × Nat) (l : List (String × Nat))
    (h : ∀ e ∈ l, e.2 ≤ x.2) : insertDesc x l = x :: l := by
  cases l with
  | nil => rfl
  | cons y ys => simp [insertDesc, h y (List.mem_cons_self y ys)]

/-- On a list of all-zero scores the stable descending sort is the
identity: Python sorted with reverse=True keeps the input order of ties. -/
theorem sortDesc_of_zero (l : List (String × Nat)) (h : ∀ e ∈ l, e.2 = 0) :
    sortDesc l = l := by
  induction l with
  | nil => rfl
  | cons x xs ih =>
    show insertDesc x (sortDesc xs) = x :: xs
    rw [ih (fun e he => h e (List.mem_cons_of_mem x he))]
    apply insertDesc_eq_cons
    intro e he
    rw [h e (List.mem_cons_of_mem x he), h x (List.mem_cons_self x xs)]

theorem pairRel_le {p q : Nat × ℚ} (h : pairRel p q) : p.2 ≤ q.2 := by
  rcases h with h | ⟨h, _⟩
  · exact le_of_lt h
  · exact le_of_eq h

theorem mem_insertAscPair (x : Nat × ℚ) (l : List (Nat × ℚ)) :
    ∀ z ∈ insertAscPair x l, z = x ∨ z ∈ l := by
  intro z hz
  have := (insertAscPair_perm x l).mem_iff.mp hz
  simpa using this

theorem pairwise_insertAscPair (x : Nat × ℚ) (l : List (Nat × ℚ))
    (hl : l.Pairwise pairRel) (hx : ∀ y ∈ l, x.1 < y.1) :
    (insertAscPair x l).Pairwise pairRel := by
  induction l with
  | nil => simp [insertAscPair, List.pairwise_singleton]
  | cons y ys ih =>
    rcases List.pairwise_cons.mp hl with ⟨hy, hys⟩
    by_cases h : x.2 ≤ y.2
    · simp only [insertAscPair, if_pos h]
      refine List.pairwise_cons.mpr ⟨?_, hl⟩
      intro z hz
      have hidx : x.1 < z.1 := hx z hz
      have hle : x.2 ≤ z.2 := by
        rcases List.mem_cons.mp hz with rfl | hz2
        · exact h
        · exact le_trans h (pairRel_le (hy z hz2))
      rcases lt_or_eq_of_le hle with hlt | heq
      · exact Or.inl hlt
      · exact Or.inr ⟨heq, hidx⟩
    · simp only [insertAscPair, if_neg h]
      refine List.pairwise_cons.mpr ⟨?_, ih hys (fun y2 hy2 => hx y2 (List.mem_cons_of_mem y hy2))⟩
      intro z hz
      rcases mem_insertAscPair x ys z hz with rfl | hz2
      · exact Or.inl (not_le.mp h)
      · exact hy z hz2

theorem pairwise_sortAscPairs (l : List (Nat × ℚ))
    (hidx : l.Pairwise (fun p q => p.1 < q.1)) :
    (sortAscPairs l).Pairwise pairRel := by
  induction l with
  | nil => exact List.Pairwise.nil
  | cons x xs ih =>
    rcases List.pairwise_cons.mp hidx with ⟨hx, hxs⟩
    show (insertAscPair x (sortAscPairs xs)).Pairwise pairRel
    refine pairwise_insertAscPair x _ (ih hxs) ?_
    intro y hy
    exact hx y ((sortAscPairs_perm xs).mem_iff.mp hy)

/- ---------------------------------------------------------------- -/
/- Lemmas on the index pairing. -/

theorem mem_enumQ (l : List ℚ) : ∀ (n : Nat) (p : Nat × ℚ), p ∈ enumQ n l →
    ∃ k, p.1 = n + k ∧ k < l.length ∧ l.getD k 0 = p.2 := by
  induction l with
  | nil => intro n p hp; cases hp
  | cons s ss ih =>
    intro n p hp
    rcases List.mem_cons.mp hp with rfl | hp2
    · exact ⟨0, by omega, by simp, rfl⟩
    · rcases ih (n + 1) p hp2 with ⟨k, hk1, hk2, hk3⟩
      refine ⟨k + 1, by omega, by simp only [List.length_cons]; omega, ?_⟩
      simpa using hk3

theorem enumQ_fst_lt (l : List ℚ) : ∀ n, (enumQ n l).Pairwise (fun p q => p.1 < q.1) := by
  induction l with
  | nil => intro n; exact List.Pairwise.nil
  | cons s ss ih =>
    intro n
    refine List.pairwise_cons.mpr ⟨?_, ih (n + 1)⟩
    intro q hq
    rcases mem_enumQ ss (n + 1) q hq with ⟨k, hk1, _, _⟩
    show n < q.1
    omega

theorem enumQ_length (l : List ℚ) : ∀ n, (enumQ n l).length = l.length := by
  induction l with
  | nil => intro n; rfl
  | cons s ss ih => intro n; simp [enumQ, ih]

/- ---------------------------------------------------------------- -/
/- Provenance invariants of the index build. -/

theorem addKw_pages (m : List (String × List String)) (kw pg : String)
    (Q : String → Prop) (hm : ∀ e ∈ m, ∀ p ∈ e.2, Q p) (hpg : Q pg) :
    ∀ e ∈ addKw m kw pg, ∀ p ∈ e.2, Q p := by
  intro e he p hp
  cases hl : alookup m kw with
  | none =>
    simp only [addKw, hl] at he
    rcases List.mem_append.mp he with he2 | he2
    · exact hm e he2 p hp
    · rcases List.mem_singleton.mp he2 with rfl
      rcases List.mem_singleton.mp hp with rfl
      exact hpg
  | some ps =>
    simp only [addKw, hl] at he
    rcases mem_aset m kw (ps ++ [pg]) e he with he2 | rfl
    · exact hm e he2 p hp
    · rcases List.mem_append.mp hp with hp2 | hp2
      · exact hm (kw, ps) (alookup_mem m kw ps hl) p hp2
      · rcases List.mem_singleton.mp hp2 with rfl
        exact hpg

theorem addKw_ne (m : List (String × List String)) (kw pg : String)
    (hm : ∀ e ∈ m, e.2 ≠ []) : ∀ e ∈ addKw m kw pg, e.2 ≠ [] := by
  intro e he
  cases hl : alookup m kw with
  | none =>
    simp only [addKw, hl] at he
    rcases List.mem_append.mp he with h2 | h2
    · exact hm e h2
    · rcases List.mem_singleton.mp h2 with rfl; simp
  | some ps =>
    simp only [addKw, hl] at he
    rcases mem_aset _ _ _ e he with h2 | rfl
    · exact hm e h2
    · simp

theorem foldl_addKw_pages (kws : List String) (n : String)
    (m : List (String × List String)) (Q : String → Prop)
    (hm : ∀ e ∈ m, ∀ p ∈ e.2, Q p) (hn : Q n) :
    ∀ e ∈ kws.foldl (fun m2 kw => addKw m2 kw n) m, ∀ p ∈ e.2, Q p :=
  foldl_preserve (fun m2 => ∀ e ∈ m2, ∀ p ∈ e.2, Q p)
    (fun m2 kw => addKw m2 kw n) kws m hm
    (fun m2 kw _ h2 => addKw_pages m2 kw n Q h2 hn)

theorem foldl_addKw_ne (kws : List String) (n : String)
    (m : List (String × List String)) (hm : ∀ e ∈ m, e.2 ≠ []) :
    ∀ e ∈ kws.foldl (fun m2 kw => addKw m2 kw n) m, e.2 ≠ [] :=
  foldl_preserve (fun m2 => ∀ e ∈ m2, e.2 ≠ [])
    (fun m2 kw => addKw m2 kw n) kws m hm
    (fun m2 kw _ h2 => addKw_ne m2 kw n h2)

theorem prepareKeywordIndexAux_pk (P : String → Prop) :
    ∀ (fs : List RawFeature) (ix0 ix : LexIndex),
      prepareKeywordIndexAux ix0 fs = .ok ix →
      (∀ f ∈ fs, ∀ n, f.page_name = some n → P n) →
      (∀ e ∈ ix0.page_keywords, P e.1) →
      ∀ e ∈ ix.page_keywords, P e.1 := by
  intro fs
  induction fs with
  | nil =>
    intro ix0 ix h _ h0
    have h2 : ix0 = ix := by simpa [prepareKeywordIndexAux] using h
    subst h2; exact h0
  | cons f fs ih =>
    intro ix0 ix h hf h0
    cases hn : f.page_name with
    | none => simp [prepareKeywordIndexAux, hn] at h
    | some n =>
      simp only [prepareKeywordIndexAux, hn] at h
      refine ih _ _ h (fun f2 hf2 => hf f2 (List.mem_cons_of_mem f hf2)) ?_
      intro e he
      simp only [addFeature] at he
      rcases mem_aset _ _ _ e he with he2 | rfl
      · exact h0 e he2
      · exact hf f (List.mem_cons_self f fs) n hn

theorem prepareKeywordIndexAux_ktp (K : String → Prop) :
    ∀ (fs : List RawFeature) (ix0 ix : LexIndex),
      prepareKeywordIndexAux ix0 fs = .ok ix →
      (∀ f ∈ fs, ∀ n, f.page_name = some n → f.keywords ≠ [] → K n) →
      (∀ e ∈ ix0.keyword_to_page, ∀ p ∈ e.2, K p) →
      ∀ e ∈ ix.keyword_to_page, ∀ p ∈ e.2, K p := by
  intro fs
  induction fs with
  | nil =>
    intro ix0 ix h _ h0
    have h2 : ix0 = ix := by simpa [prepareKeywordIndexAux] using h
    subst h2; exact h0
  | cons f fs ih =>
    intro ix0 ix h hf h0
    cases hn : f.page_name with
    | none => simp [prepareKeywordIndexAux, hn] at h
    | some n =>
      simp only [prepareKeywordIndexAux, hn] at h
      refine ih _ _ h (fun f2 hf2 => hf f2 (List.mem_cons_of_mem f hf2)) ?_
      simp only [addFeature]
      cases hkw : f.keywords with
      | nil => simpa using h0
      | cons k ks =>
        have hK : K n := hf f (List.mem_cons_self f fs) n hn (by simp [hkw])
        exact foldl_addKw_pages (k :: ks) n ix0.keyword_to_page K h0 hK

theorem prepareKeywordIndexAux_ktp_ne :
    ∀ (fs : List RawFeature) (ix0 ix : LexIndex),
      prepareKeywordIndexAux ix0 fs = .ok ix →
      (∀ e ∈ ix0.keyword_to_page, e.2 ≠ []) →
      ∀ e ∈ ix.keyword_to_page, e.2 ≠ [] := by
  intro fs
  induction fs with
  | nil =>
    intro ix0 ix h h0
    have h2 : ix0 = ix := by simpa [prepareKeywordIndexAux] using h
    subst h2; exact h0
  | cons f fs ih =>
    intro ix0 ix h h0
    cases hn : f.page_name with
    | none => simp [prepareKeywordIndexAux, hn] at h
    | some n =>
      simp only [prepareKeywordIndexAux, hn] at h
      refine ih _ _ h ?_
      simp only [addFeature]
      exact foldl_addKw_ne f.keywords n ix0.keyword_to_page h0

theorem prepareKeywordIndexAux_pk_le :
    ∀ (fs : List RawFeature) (ix0 ix : LexIndex),
      prepareKeywordIndexAux ix0 fs = .ok ix →
      ix0.page_keywords.length ≤ ix.page_keywords.length := by
  intro fs
  induction fs with
  | nil =>
    intro ix0 ix h
    have h2 : ix0 = ix := by simpa [prepareKeywordIndexAux] using h
    subst h2; exact le_refl _
  | cons f fs ih =>
    intro ix0 ix h
    cases hn : f.page_name with
    | none => simp [prepareKeywordIndexAux, hn] at h
    | some n =>
      simp only [prepareKeywordIndexAux, hn] at h
      refine le_trans ?_ (ih _ _ h)
      simp only [addFeature]
      exact aset_length_le _ _ _

theorem prepareCandidates_mem :
    ∀ (feats : List RawFeature) (cands : List (String × String)),
      prepareCandidates feats = .ok cands →
      ∀ c ∈ cands, ∃ f ∈ feats, f.page_name = some c.1 ∧ c.2 ∈ f.keywords := by
  intro feats
  induction feats with
  | nil =>
    intro cands h c hc
    have h2 : ([] : List (String × String)) = cands := by
      simpa [prepareCandidates] using h
    rw [← h2] at hc
    cases hc
  | cons f fs ih =>
    intro cands h c hc
    cases hn : f.page_name with
    | none => simp [prepareCandidates, hn] at h
    | some n =>
      simp only [prepareCandidates, hn] at h
      cases hr : prepareCandidates fs with
      | error e =>
        rw [hr] at h
        exact Except.noConfusion h
      | ok rest =>
        simp only [hr] at h
        have hc2 : (f.keywords.map (fun k => (n, k))) ++ rest = cands := by
          simpa using h
        rw [← hc2] at hc
        rcases List.mem_append.mp hc with hm | hm
        · rcases List.mem_map.mp hm with ⟨k, hk, rfl⟩
          exact ⟨f, List.mem_cons_self f fs, hn, by simpa using hk⟩
        · rcases ih rest hr c hm with ⟨f2, hf2, hx⟩
          exact ⟨f2, List.mem_cons_of_mem f hf2, hx⟩

/- ---------------------------------------------------------------- -/
/- The wSum bridge: the keyword dictionary counts hits exactly as the
   catalog does. -/

theorem wSum_append (m1 m2 : List (String × List String)) (w p : String) :
    wSum (m1 ++ m2) w p = wSum m1 w p + wSum m2 w p := by
  simp [wSum, List.filter_append]

theorem aset_wSum (m : List (String × List String)) (kw : String)
    (ps : List String) (pg w p : String) (h : alookup m kw = some ps) :
    wSum (aset m kw (ps ++ [pg])) w p =
      wSum m w p + (if wordMatch w kw ∧ p = pg then 1 else 0) := by
  induction m with
  | nil => cases h
  | cons e m ih =>
    obtain ⟨k2, v2⟩ := e
    by_cases hk : k2 = kw
    · subst hk
      have hv : v2 = ps := by simpa [alookup] using h
      subst hv
      have ha : aset ((k2, v2) :: m) k2 (v2 ++ [pg]) = (k2, v2 ++ [pg]) :: m := by
        simp [aset]
      rw [ha, wSum_cons, wSum_cons]
      have hc : (v2 ++ [pg]).count p = v2.count p + (if p = pg then 1 else 0) := by
        by_cases hp : p = pg
        · subst hp; simp [List.count_append, List.count_cons]
        · have h2 : ¬ pg = p := fun hh => hp hh.symm
          simp [List.count_append, List.count_cons, hp, h2]
      cases hw : wordMatch w k2 with
      | false => simp [hw]
      | true =>
        simp only [hw]
        by_cases hp : p = pg <;> simp [hp] at hc ⊢ <;> omega
    · simp only [aset, if_neg hk]
      have h2 : alookup m kw = some ps := by simpa [alookup, hk] using h
      rw [wSum_cons, wSum_cons, ih h2]
      omega

theorem addKw_wSum (m : List (String × List String)) (kw pg w p : String) :
    wSum (addKw m kw pg) w p =
      wSum m w p + (if wordMatch w kw ∧ p = pg then 1 else 0) := by
  cases hl : alookup m kw with
  | none =>
    simp only [addKw, hl]
    rw [wSum_append]
    have hone : wSum [(kw, [pg])] w p = (if wordMatch w kw ∧ p = pg then 1 else 0) := by
      rw [wSum_cons]
      cases hw : wordMatch w kw with
      | false => simp [hw, wSum]
      | true =>
        by_cases hp : p = pg
        · subst hp; simp [List.count_cons, wSum]
        · have h2 : ¬ pg = p := fun hh => hp hh.symm
          simp [List.count_cons, wSum, hp, h2]
    rw [hone]
  | some ps =>
    simp only [addKw, hl]
    exact aset_wSum m kw ps pg w p hl

theorem foldl_addKw_wSum (kws : List String) (n w p : String) :
    ∀ m, wSum (kws.foldl (fun m2 kw => addKw m2 kw n) m) w p =
      wSum m w p + (if p = n then countMatches w kws else 0) := by
  induction kws with
  | nil => intro m; simp [countMatches]
  | cons kw kws ih =>
    intro m
    rw [List.foldl_cons, ih (addKw m kw n), addKw_wSum]
    have hc : countMatches w (kw :: kws) =
        (if wordMatch w kw then 1 else 0) + countMatches w kws := by
      cases hw : wordMatch w kw <;> simp [countMatches, List.filter_cons, hw] <;> omega
    by_cases hp : p = n
    · subst hp
      cases hw : wordMatch w kw <;> simp [hw, hc] <;> omega
    · simp [hp]

theorem prepareKeywordIndexAux_wSum :
    ∀ (fs : List RawFeature) (ix0 ix : LexIndex) (w p : String),
      prepareKeywordIndexAux ix0 fs = .ok ix →
      wSum ix.keyword_to_page w p =
        wSum ix0.keyword_to_page w p +
          ((fs.filter (fun f => f.page_name == some p)).map
            (fun f => countMatches w f.keywords)).sum := by
  intro fs
  induction fs with
  | nil =>
    intro ix0 ix w p h
    have h2 : ix0 = ix := by simpa [prepareKeywordIndexAux] using h
    subst h2; simp
  | cons f fs ih =>
    intro ix0 ix w p h
    cases hn : f.page_name with
    | none => simp [prepareKeywordIndexAux, hn] at h
    | some n =>
      simp only [prepareKeywordIndexAux, hn] at h
      rw [ih _ _ w p h]
      have h2 : wSum (addFeature ix0 n f.keywords).keyword_to_page w p =
          wSum ix0.keyword_to_page w p +
            (if p = n then countMatches w f.keywords else 0) := by
        simp only [addFeature]
        exact foldl_addKw_wSum f.keywords n w p ix0.keyword_to_page
      rw [h2]
      by_cases hp : n = p
      · subst hp
        have hbe : (f.page_name == some n) = true := by simp [hn]
        simp [List.filter_cons, hbe]
        omega
      · have hbe : (f.page_name == some p) = false := by simp [hn, hp]
        have hp2 : ¬ p = n := fun hh => hp hh.symm
        simp [List.filter_cons, hbe, hp2]

theorem wSum_ix (feats : List RawFeature) (ix : LexIndex)
    (hix : prepareKeywordIndex feats = .ok ix) (w p : String) :
    wSum ix.keyword_to_page w p =
      ((feats.filter (fun f => f.page_name == some p)).map
        (fun f => countMatches w f.keywords)).sum := by
  have h := prepareKeywordIndexAux_wSum feats _ ix w p hix
  simpa [wSum] using h

/-- The hit count read off the built dictionary equals the spec-side
rawHits formula over the catalog. -/
theorem hitsVia_eq_rawHits (feats : List RawFeature) (ix : LexIndex)
    (hix : prepareKeywordIndex feats = .ok ix) (p : String) (qws : List String) :
    hitsVia ix.keyword_to_page p qws = rawHits feats p qws := by
  induction qws with
  | nil => rfl
  | cons w qws ih =>
    simp only [hitsVia, rawHits, List.map_cons, List.sum_cons] at ih ⊢
    rw [wSum_ix feats ix hix w p]
    omega

/- ---------------------------------------------------------------- -/
/- Helper lemmas on the loaders. -/

theorem prepareCandidates_error_of_missing (feats : List RawFeature)
    (h : ∃ f ∈ feats, f.page_name = none) :
    prepareCandidates feats = .error "KeyError: page_name" := by
  induction feats with
  | nil => rcases h with ⟨f, hf, _⟩; cases hf
  | cons g fs ih =>
    rcases h with ⟨f, hf, hn⟩
    rcases List.mem_cons.mp hf with rfl | hf2
    · simp [prepareCandidates, hn]
    · cases hg : g.page_name with
      | none => simp [prepareCandidates, hg]
      | some n =>
        have hrec := ih ⟨f, hf2, hn⟩
        simp [prepareCandidates, hg, hrec]

theorem prepareKeywordIndexAux_error_of_missing (fs : List RawFeature) :
    ∀ ix : LexIndex, (∃ f ∈ fs, f.page_name = none) →
    prepareKeywordIndexAux ix fs = .error "KeyError: page_name" := by
  induction fs with
  | nil => intro ix h; rcases h with ⟨f, hf, _⟩; cases hf
  | cons g fs ih =>
    intro ix h
    rcases h with ⟨f, hf, hn⟩
    rcases List.mem_cons.mp hf with rfl | hf2
    · simp [prepareKeywordIndexAux, hn]
    · cases hg : g.page_name with
      | none => simp [prepareKeywordIndexAux, hg]
      | some n =>
        simp only [prepareKeywordIndexAux, hg]
        exact ih _ ⟨f, hf2, hn⟩

/- ---------------------------------------------------------------- -/
/- Claim C3. -/

/-- Claim C3, counterexample: a catalog with zero pages does NOT fail to
load — both loaders succeed and publish an empty index, contradicting
the claim that loading fails with MalformedCatalog on zero pages. -/
theorem claim_C3_counterexample :
    prepareCandidates [] = Except.ok [] ∧
    prepareKeywordIndex [] =
      Except.ok { keyword_to_page := [], page_keywords := [] } :=
  ⟨rfl, rfl⟩

/-- Claim C3 as amended: when some page record lacks the page_name field,
both loaders fail with an error (the Python KeyError) and publish no
index at all; a zero-page catalog, however, loads successfully with an
empty index. -/
theorem claim_C3_theorem (feats : List RawFeature)
    (h : ∃ f ∈ feats, f.page_name = none) :
    prepareCandidates feats = .error "KeyError: page_name" ∧
    prepareKeywordIndex feats = .error "KeyError: page_name" :=
  ⟨prepareCandidates_error_of_missing feats h,
   prepareKeywordIndexAux_error_of_missing feats _ h⟩

/-- Claim C3, witness: a concrete catalog whose sole record lacks a name. -/
theorem claim_C3_witness :
    prepareCandidates [{ page_name := none, keywords := ["k"], description := "" }] =
      .error "KeyError: page_name" ∧
    prepareKeywordIndex [{ page_name := none, keywords := ["k"], description := "" }] =
      .error "KeyError: page_name" :=
  claim_C3_theorem _ ⟨_, List.mem_singleton.mpr rfl, rfl⟩

/- ---------------------------------------------------------------- -/
/- Claim C9. -/

/-- Claim C9, confirmed: prediction is a deterministic function of the
catalog and the query — building the index twice from the same catalog
yields identical predict output under both matchers (the whole pipeline
is pure; the external encoder is fixed by the similarity row). -/
theorem claim_C9_theorem (feats : List RawFeature) (q : String)
    (ix1 ix2 : LexIndex) (c1 c2 : List (String × String)) (sims : List ℚ)
    (h1 : prepareKeywordIndex feats = .ok ix1)
    (h2 : prepareKeywordIndex feats = .ok ix2)
    (g1 : prepareCandidates feats = .ok c1)
    (g2 : prepareCandidates feats = .ok c2) :
    lexPredict feats ix1 q = lexPredict feats ix2 q ∧
    embPredict c1 feats sims = embPredict c2 feats sims := by
  rw [h1] at h2
  rw [g1] at g2
  cases h2
  cases g2
  exact ⟨rfl, rfl⟩

/-- Claim C9, witness: the determinism theorem applied to a one-page
catalog with both loads spelled out. -/
theorem claim_C9_witness :
    lexPredict [{ page_name := some "p", keywords := ["k"], description := "" }]
        { keyword_to_page := [("k", ["p"])], page_keywords := [("p", ["k"])] } "k" =
      lexPredict [{ page_name := some "p", keywords := ["k"], description := "" }]
        { keyword_to_page := [("k", ["p"])], page_keywords := [("p", ["k"])] } "k" ∧
    embPredict [("p", "k")] [{ page_name := some "p", keywords := ["k"], description := "" }] [1] =
      embPredict [("p", "k")] [{ page_name := some "p", keywords := ["k"], description := "" }] [1] :=
  claim_C9_theorem _ "k" _ _ _ _ [1] rfl rfl rfl rfl

/- ---------------------------------------------------------------- -/
/- Shape lemmas on the two predict functions. -/

theorem mem_lexPredict (feats : List RawFeature) (ix : LexIndex) (q : String)
    (r : MatchResult) (hr : r ∈ lexPredict feats ix q) :
    ∃ e ∈ effScores ix (queryWords q),
      r = { page_name := e.1
            keyword := matchedKeyword (queryWords q) ((alookup ix.page_keywords e.1).getD [])
            similarity_score := (e.2 : ℚ) / ((max (queryWords q).length 1 : Nat) : ℚ)
            description := getPageDescription feats e.1 } := by
  simp only [lexPredict] at hr
  rcases List.mem_map.mp hr with ⟨e, he, rfl⟩
  refine ⟨e, ?_, rfl⟩
  have he2 : e ∈ sortDesc (effScores ix (queryWords q)) :=
    (List.take_sublist 5 _).subset he
  exact (sortDesc_perm _).mem_iff.mp he2

theorem lexPredict_length (feats : List RawFeature) (ix : LexIndex) (q : String) :
    (lexPredict feats ix q).length = min 5 (effScores ix (queryWords q)).length := by
  simp only [lexPredict, List.length_map, List.length_take]
  rw [(sortDesc_perm _).length_eq]

theorem topIndices_length (sims : List ℚ) :
    (topIndices sims).length = min 5 sims.length := by
  simp only [topIndices, List.length_take, List.length_reverse, List.length_map]
  rw [(sortAscPairs_perm _).length_eq, enumQ_length]

theorem embPredict_length (cands : List (String × String)) (feats : List RawFeature)
    (sims : List ℚ) :
    (embPredict cands feats sims).length = min 5 sims.length := by
  simp only [embPredict, List.length_map]
  exact topIndices_length sims

theorem mem_topIndices (sims : List ℚ) (i : Nat) (hi : i ∈ topIndices sims) :
    i < sims.length := by
  simp only [topIndices] at hi
  have h2 : i ∈ ((sortAscPairs (enumQ 0 sims)).map Prod.fst).reverse :=
    (List.take_sublist 5 _).subset hi
  rw [List.mem_reverse] at h2
  rcases List.mem_map.mp h2 with ⟨p, hp, rfl⟩
  have hp2 : p ∈ enumQ 0 sims := (sortAscPairs_perm _).mem_iff.mp hp
  rcases mem_enumQ sims 0 p hp2 with ⟨k, hk1, hk2, _⟩
  omega

theorem getD_mem {α : Type} (l : List α) (d : α) :
    ∀ i, i < l.length → l.getD i d ∈ l := by
  induction l with
  | nil => intro i hi; simp at hi
  | cons a l ih =>
    intro i hi
    cases i with
    | zero => rw [List.getD_cons_zero]; exact List.mem_cons_self a l
    | succ j =>
      rw [List.getD_cons_succ]
      exact List.mem_cons_of_mem a (ih j (by simpa using hi))

theorem mem_embPredict (cands : List (String × String)) (feats : List RawFeature)
    (sims : List ℚ) (r : MatchResult) (hlen : sims.length = cands.length)
    (hr : r ∈ embPredict cands feats sims) :
    ∃ c ∈ cands, r.page_name = c.1 := by
  simp only [embPredict] at hr
  rcases List.mem_map.mp hr with ⟨i, hi, rfl⟩
  have hb := mem_topIndices sims i hi
  exact ⟨cands.getD i ("", ""), getD_mem cands ("", "") i (by omega), rfl⟩

theorem effScores_names (feats : List RawFeature) (ix : LexIndex)
    (hix : prepareKeywordIndex feats = .ok ix) (qws : List String) :
    ∀ e ∈ effScores ix qws, ∃ f ∈ feats, f.page_name = some e.1 := by
  intro e he
  simp only [effScores] at he
  by_cases hps : (pageScores ix.keyword_to_page qws).isEmpty
  · rw [if_pos hps] at he
    rcases List.mem_map.mp he with ⟨e2, he2, rfl⟩
    exact prepareKeywordIndexAux_pk (fun n => ∃ f ∈ feats, f.page_name = some n)
      feats _ ix hix (fun f hf n hn => ⟨f, hf, hn⟩)
      (fun e3 he3 => absurd he3 (List.not_mem_nil e3)) e2 he2
  · rw [if_neg hps] at he
    have hktp := prepareKeywordIndexAux_ktp (fun n => ∃ f ∈ feats, f.page_name = some n)
      feats _ ix hix (fun f hf n hn _ => ⟨f, hf, hn⟩)
      (fun e3 he3 => absurd he3 (List.not_mem_nil e3))
    exact pageScores_names ix.keyword_to_page qws _ hktp e he

theorem pageScores_keyword_pages (feats : List RawFeature) (ix : LexIndex)
    (hix : prepareKeywordIndex feats = .ok ix) (qws : List String) :
    ∀ x ∈ pageScores ix.keyword_to_page qws,
      ∃ f ∈ feats, f.page_name = some x.1 ∧ f.keywords ≠ [] := by
  have hktp := prepareKeywordIndexAux_ktp
    (fun n => ∃ f ∈ feats, f.page_name = some n ∧ f.keywords ≠ [])
    feats _ ix hix (fun f hf n hn hne => ⟨f, hf, hn, hne⟩)
    (fun e3 he3 => absurd he3 (List.not_mem_nil e3))
  exact pageScores_names ix.keyword_to_page qws _ hktp

theorem pageScores_nil_of_nomatch (ktp : List (String × List String)) (qws : List String)
    (h : ∀ w ∈ qws, ∀ e ∈ ktp, wordMatch w e.1 = false) :
    pageScores ktp qws = [] := by
  simp only [pageScores]
  refine foldl_preserve (fun m => m = [])
      (fun m w => ktp.foldl (fun m2 e => scoreWordKw m2 w e) m) qws [] rfl ?_
  intro m w hw hm
  refine foldl_preserve (fun m2 => m2 = [])
      (fun m2 e => scoreWordKw m2 w e) ktp m hm ?_
  intro m2 e he hm2
  simp [scoreWordKw, h w hw e he, hm2]

theorem optCount_eq_some (n s : Nat) (h : optCount n = some s) : s = n := by
  by_cases h0 : n = 0
  · simp [optCount, h0] at h
  · simp [optCount, h0] at h
    exact h.symm

/-- Every entry of the scoring dictionary carries exactly the hit count of
its page, and that count is at least 1. -/
theorem mem_pageScores_hits (ktp : List (String × List String)) (qws : List String)
    (e : String × Nat) (he : e ∈ pageScores ktp qws) :
    e.2 = hitsVia ktp e.1 qws ∧ 1 ≤ e.2 := by
  have hnodup := pageScores_nodupKeys ktp qws
  have hl : alookup (pageScores ktp qws) e.1 = some e.2 :=
    alookup_of_mem_nodup _ hnodup e.1 e.2 he
  rw [pageScores_lookup] at hl
  have heq := optCount_eq_some _ _ hl
  constructor
  · exact heq
  · by_cases h0 : hitsVia ktp e.1 qws = 0
    · rw [h0] at hl; simp [optCount] at hl
    · omega

/- ---------------------------------------------------------------- -/
/- Claim C1. -/

/-- Claim C1, counterexample: a catalog with one page whose keyword list is
empty is non-empty, yet the Embedding Matcher has zero candidates and its
predict returns the empty list — refuting the claim that predict is
non-empty for every catalog with at least one page, including catalogs
whose pages all have empty keyword lists. -/
theorem claim_C1_counterexample :
    prepareCandidates [{ page_name := some "unused", keywords := [], description := "" }] =
      Except.ok [] ∧
    embPredict [] [{ page_name := some "unused", keywords := [], description := "" }] [] = [] :=
  ⟨rfl, rfl⟩

/-- Claim C1 as amended: for a non-empty catalog the Lexical Matcher always
returns a non-empty result; the Embedding Matcher returns a non-empty
result whenever at least one (page, keyword) candidate exists, but when
every keyword list is empty it has zero candidates and returns no
results. -/
theorem claim_C1_theorem (feats : List RawFeature) (ix : LexIndex) (q : String)
    (cands : List (String × String)) (sims : List ℚ)
    (hfe : feats ≠ []) (hix : prepareKeywordIndex feats = .ok ix)
    (hc : cands ≠ []) (hlen : sims.length = cands.length) :
    lexPredict feats ix q ≠ [] ∧ embPredict cands feats sims ≠ [] := by
  constructor
  · have hpk : 1 ≤ ix.page_keywords.length := by
      cases feats with
      | nil => exact absurd rfl hfe
      | cons f fs =>
        cases hn : f.page_name with
        | none =>
          rw [prepareKeywordIndex] at hix
          simp [prepareKeywordIndexAux, hn] at hix
        | some n =>
          rw [prepareKeywordIndex] at hix
          simp only [prepareKeywordIndexAux, hn] at hix
          have hle := prepareKeywordIndexAux_pk_le fs _ ix hix
          simpa [addFeature, aset] using hle
    have heff : 1 ≤ (effScores ix (queryWords q)).length := by
      simp only [effScores]
      by_cases hps : (pageScores ix.keyword_to_page (queryWords q)).isEmpty
      · rw [if_pos hps]
        simpa [List.length_map] using hpk
      · rw [if_neg hps]
        have hne : pageScores ix.keyword_to_page (queryWords q) ≠ [] := by
          intro h0
          exact hps (List.isEmpty_iff.mpr h0)
        have := List.length_pos.mpr hne
        omega
    apply List.ne_nil_of_length_pos
    rw [lexPredict_length]
    omega
  · apply List.ne_nil_of_length_pos
    rw [embPredict_length]
    have hcl : 0 < cands.length := List.length_pos.mpr hc
    omega

/-- Claim C1, witness: a one-page one-keyword catalog, both matchers. -/
theorem claim_C1_witness :
    lexPredict kbOne ixOne "q" ≠ [] ∧ embPredict [("p", "k")] kbOne [1] ≠ [] :=
  claim_C1_theorem kbOne ixOne "q" [("p", "k")] [1]
    (by decide) rfl (by decide) rfl

/- ---------------------------------------------------------------- -/
/- Claim C2. -/

/-- Claim C2, counterexample: six pages, a query matching nothing — every
page scores 0 but only five pages are returned, so the result is a strict
subset of the catalog pages, refuting the claim for catalogs with more
than five pages. -/
theorem claim_C2_counterexample :
    (∀ w ∈ queryWords "zzz", ∀ e ∈ ixSix.keyword_to_page, wordMatch w e.1 = false) ∧
    prepareKeywordIndex kbSix = Except.ok ixSix ∧
    kbSix.length = 6 ∧
    (lexPredict kbSix ixSix "zzz").length = 5 ∧
    "p6" ∉ (lexPredict kbSix ixSix "zzz").map (fun r => r.page_name) :=
  ⟨by decide, rfl, rfl, by decide, by decide⟩

/-- Claim C2 as amended: when no query word matches any indexed keyword,
every returned page has score 0 and the result lists the first
min(5, page count) catalog pages in catalog order — all pages only when
the catalog has at most five pages. -/
theorem claim_C2_theorem (feats : List RawFeature) (ix : LexIndex) (q : String)
    (hix : prepareKeywordIndex feats = .ok ix)
    (hno : ∀ w ∈ queryWords q, ∀ e ∈ ix.keyword_to_page, wordMatch w e.1 = false) :
    (∀ r ∈ lexPredict feats ix q, r.similarity_score = 0) ∧
    (lexPredict feats ix q).length = min 5 ix.page_keywords.length ∧
    (lexPredict feats ix q).map (fun r => r.page_name) =
      (ix.page_keywords.map (fun e => e.1)).take 5 := by
  have hps := pageScores_nil_of_nomatch ix.keyword_to_page (queryWords q) hno
  have heff : effScores ix (queryWords q) = ix.page_keywords.map (fun e => (e.1, 0)) := by
    simp [effScores, hps]
  have hsort : sortDesc (effScores ix (queryWords q)) =
      ix.page_keywords.map (fun e => (e.1, 0)) := by
    rw [heff]
    apply sortDesc_of_zero
    intro e he
    rcases List.mem_map.mp he with ⟨e2, _, rfl⟩
    rfl
  refine ⟨?_, ?_, ?_⟩
  · intro r hr
    rcases mem_lexPredict feats ix q r hr with ⟨e, he, rfl⟩
    rw [heff] at he
    rcases List.mem_map.mp he with ⟨e2, _, rfl⟩
    simp
  · rw [lexPredict_length, heff, List.length_map]
  · simp only [lexPredict, hsort, List.map_map, List.map_take]
    rfl

/-- Claim C2, witness: the amended statement on the six-page catalog and a
query matching nothing. -/
theorem claim_C2_witness :
    (∀ r ∈ lexPredict kbSix ixSix "zzz", r.similarity_score = 0) ∧
    (lexPredict kbSix ixSix "zzz").length = min 5 ixSix.page_keywords.length ∧
    (lexPredict kbSix ixSix "zzz").map (fun r => r.page_name) =
      (ixSix.page_keywords.map (fun e => e.1)).take 5 :=
  claim_C2_theorem kbSix ixSix "zzz" rfl (by decide)

/- ---------------------------------------------------------------- -/
/- Claim C4. -/

/-- Claim C4, counterexample: two candidates with equal similarity. The
ranking np.argsort(...)[::-1] puts the LARGER original index first
(index 1 before index 0), refuting the claim that ties are broken by
ascending original candidate index. -/
theorem claim_C4_counterexample :
    topIndices [(1 : ℚ), 1] = [1, 0] ∧
    (embPredict [("p0", "k0"), ("p1", "k1")] [] [(1 : ℚ), 1]).map (fun r => r.page_name) =
      ["p1", "p0"] := by
  decide

/-- Claim C4 as amended: for every similarity row, the candidate indices
are ordered by descending similarity, and whenever two candidates have
equal similarity the candidate with the LARGER (later-in-catalog)
original index is ranked first — the reversed stable ascending argsort
puts ties in descending index order. -/
theorem claim_C4_theorem (sims : List ℚ) :
    (topIndices sims).Pairwise (fun i j =>
      sims.getD j 0 < sims.getD i 0 ∨ (sims.getD i 0 = sims.getD j 0 ∧ j < i)) := by
  have h1 : (sortAscPairs (enumQ 0 sims)).Pairwise pairRel :=
    pairwise_sortAscPairs _ (enumQ_fst_lt sims 0)
  have hmem : ∀ p ∈ sortAscPairs (enumQ 0 sims), sims.getD p.1 0 = p.2 := by
    intro p hp
    have hp2 : p ∈ enumQ 0 sims := (sortAscPairs_perm _).mem_iff.mp hp
    rcases mem_enumQ sims 0 p hp2 with ⟨k, hk1, _, hk3⟩
    have hk0 : p.1 = k := by omega
    rw [hk0]
    exact hk3
  have h2 : (sortAscPairs (enumQ 0 sims)).Pairwise
      (fun p q => sims.getD p.1 0 < sims.getD q.1 0 ∨
        (sims.getD q.1 0 = sims.getD p.1 0 ∧ p.1 < q.1)) := by
    refine h1.imp_of_mem ?_
    intro a b ha hb hr
    rw [hmem a ha, hmem b hb]
    rcases hr with h | ⟨h, h2⟩
    · exact Or.inl h
    · exact Or.inr ⟨h.symm, h2⟩
  have h3 : ((sortAscPairs (enumQ 0 sims)).map Prod.fst).Pairwise
      (fun i j => sims.getD i 0 < sims.getD j 0 ∨
        (sims.getD j 0 = sims.getD i 0 ∧ i < j)) :=
    List.pairwise_map.mpr h2
  have h4 : (((sortAscPairs (enumQ 0 sims)).map Prod.fst).reverse).Pairwise
      (fun i j => sims.getD j 0 < sims.getD i 0 ∨
        (sims.getD i 0 = sims.getD j 0 ∧ j < i)) :=
    List.pairwise_reverse.mpr h3
  simp only [topIndices]
  exact h4.take

/- ---------------------------------------------------------------- -/
/- Claim C5. -/

/-- Claim C5, confirmed: both matchers return at most five results, every
returned page name belongs to the catalog, and when fewer than five
scored candidates exist all of them are returned (the result length is
exactly the minimum of 5 and the number of scored candidates). -/
theorem claim_C5_theorem (feats : List RawFeature) (cands : List (String × String))
    (sims : List ℚ) (ix : LexIndex) (q : String)
    (hc : prepareCandidates feats = .ok cands)
    (hlen : sims.length = cands.length)
    (hix : prepareKeywordIndex feats = .ok ix) :
    (embPredict cands feats sims).length = min 5 cands.length ∧
    (∀ r ∈ embPredict cands feats sims, ∃ f ∈ feats, f.page_name = some r.page_name) ∧
    (lexPredict feats ix q).length = min 5 (effScores ix (queryWords q)).length ∧
    (∀ r ∈ lexPredict feats ix q, ∃ f ∈ feats, f.page_name = some r.page_name) := by
  refine ⟨?_, ?_, lexPredict_length feats ix q, ?_⟩
  · rw [embPredict_length, hlen]
  · intro r hr
    rcases mem_embPredict cands feats sims r hlen hr with ⟨c, hcm, hpn⟩
    rcases prepareCandidates_mem feats cands hc c hcm with ⟨f, hf, hn, _⟩
    refine ⟨f, hf, ?_⟩
    rw [hpn]
    exact hn
  · intro r hr
    rcases mem_lexPredict feats ix q r hr with ⟨e, he, rfl⟩
    exact effScores_names feats ix hix (queryWords q) e he

/-- Claim C5, witness: both matchers on the one-page catalog. -/
theorem claim_C5_witness :
    (embPredict [("p", "k")] kbOne [1]).length = min 5 ([("p", "k")] : List (String × String)).length ∧
    (∀ r ∈ embPredict [("p", "k")] kbOne [1], ∃ f ∈ kbOne, f.page_name = some r.page_name) ∧
    (lexPredict kbOne ixOne "k").length = min 5 (effScores ixOne (queryWords "k")).length ∧
    (∀ r ∈ lexPredict kbOne ixOne "k", ∃ f ∈ kbOne, f.page_name = some r.page_name) :=
  claim_C5_theorem kbOne [("p", "k")] [1] ixOne "k" rfl rfl rfl

/- ---------------------------------------------------------------- -/
/- Claim C6. -/

/-- Claim C6, confirmed: every returned score of the Lexical Matcher equals
the number of matching (query word position, keyword occurrence of the
page) pairs divided by max(number of query words, 1). -/
theorem claim_C6_theorem (feats : List RawFeature) (ix : LexIndex) (q : String)
    (r : MatchResult) (hix : prepareKeywordIndex feats = .ok ix)
    (hr : r ∈ lexPredict feats ix q) :
    r.similarity_score =
      (rawHits feats r.page_name (queryWords q) : ℚ) /
        ((max (queryWords q).length 1 : Nat) : ℚ) := by
  rcases mem_lexPredict feats ix q r hr with ⟨e, he, rfl⟩
  have hscore : e.2 = rawHits feats e.1 (queryWords q) := by
    rw [← hitsVia_eq_rawHits feats ix hix]
    simp only [effScores] at he
    by_cases hps : (pageScores ix.keyword_to_page (queryWords q)).isEmpty
    · rw [if_pos hps] at he
      rcases List.mem_map.mp he with ⟨e2, he2, rfl⟩
      have hnil : pageScores ix.keyword_to_page (queryWords q) = [] :=
        List.isEmpty_iff.mp hps
      have hchar := pageScores_lookup ix.keyword_to_page (queryWords q) e2.1
      rw [hnil] at hchar
      have h1 : (none : Option Nat) =
          optCount (hitsVia ix.keyword_to_page e2.1 (queryWords q)) := hchar
      have h0 := (optCount_eq_none_iff _).mp h1.symm
      simpa using h0.symm
    · rw [if_neg hps] at he
      exact (mem_pageScores_hits _ _ e he).1
  exact congrArg
    (fun n : Nat => ((n : ℚ) / ((max (queryWords q).length 1 : Nat) : ℚ))) hscore

/-- Claim C6, witness: the exact-match query on the one-page catalog,
whose sole result carries score 1 hit / 1 query word. -/
theorem claim_C6_witness :
    ({ page_name := "p", keyword := "k",
       similarity_score := ((1 : Nat) : ℚ) / ((max (queryWords "k").length 1 : Nat) : ℚ),
       description := "" } : MatchResult) ∈ lexPredict kbOne ixOne "k" ∧
    ({ page_name := "p", keyword := "k",
       similarity_score := ((1 : Nat) : ℚ) / ((max (queryWords "k").length 1 : Nat) : ℚ),
       description := "" } : MatchResult).similarity_score =
      (rawHits kbOne "p" (queryWords "k") : ℚ) /
        ((max (queryWords "k").length 1 : Nat) : ℚ) := by
  have hm : ({ page_name := "p", keyword := "k",
               similarity_score := ((1 : Nat) : ℚ) / ((max (queryWords "k").length 1 : Nat) : ℚ),
               description := "" } : MatchResult) ∈ lexPredict kbOne ixOne "k" :=
    List.Mem.head _
  exact ⟨hm, claim_C6_theorem kbOne ixOne "k" _ rfl hm⟩

/- ---------------------------------------------------------------- -/
/- Claim C7. -/

/-- Claim C7, counterexample: a catalog whose first page has an empty
keyword list; on a query matching nothing the lexical fallback returns
every page with score zero, and the empty-keyword page is the TOP
prediction — refuting the claim that an empty-keyword page can never be
the first element of the result list. -/
theorem claim_C7_counterexample :
    prepareKeywordIndex kbUnused = Except.ok ixUnused ∧
    ({ page_name := some "u", keywords := [], description := "" } : RawFeature) ∈ kbUnused ∧
    (lexPredict kbUnused ixUnused "zzz").map (fun r => r.page_name) = ["u", "p"] :=
  ⟨rfl, by decide, by decide⟩

/-- Claim C7 as amended: under the Embedding Matcher a page with an empty
keyword list never appears in the results at all; under the Lexical
Matcher, whenever the scoring pass records at least one hit (some query
word matches some keyword), every returned page — in particular the top
prediction — has a non-empty keyword list.  Only in the all-zero
fallback can an empty-keyword page surface. -/
theorem claim_C7_theorem (feats : List RawFeature) (cands : List (String × String))
    (sims : List ℚ) (ix : LexIndex) (q : String)
    (hc : prepareCandidates feats = .ok cands)
    (hlen : sims.length = cands.length)
    (hix : prepareKeywordIndex feats = .ok ix)
    (hm : pageScores ix.keyword_to_page (queryWords q) ≠ []) :
    (∀ r ∈ embPredict cands feats sims,
        ∃ f ∈ feats, f.page_name = some r.page_name ∧ f.keywords ≠ []) ∧
    (∀ r ∈ lexPredict feats ix q,
        ∃ f ∈ feats, f.page_name = some r.page_name ∧ f.keywords ≠ []) := by
  constructor
  · intro r hr
    rcases mem_embPredict cands feats sims r hlen hr with ⟨c, hcm, hpn⟩
    rcases prepareCandidates_mem feats cands hc c hcm with ⟨f, hf, hn, hkw⟩
    refine ⟨f, hf, ?_, List.ne_nil_of_mem hkw⟩
    rw [hpn]
    exact hn
  · intro r hr
    rcases mem_lexPredict feats ix q r hr with ⟨e, he, rfl⟩
    have heff : effScores ix (queryWords q) =
        pageScores ix.keyword_to_page (queryWords q) := by
      simp only [effScores]
      rw [if_neg]
      intro hemp
      exact hm (List.isEmpty_iff.mp hemp)
    rw [heff] at he
    exact pageScores_keyword_pages feats ix hix (queryWords q) e he

/-- Claim C7, witness: the amended statement on the catalog with an
empty-keyword page and a query that does match a keyword. -/
theorem claim_C7_witness :
    (∀ r ∈ embPredict [("p", "ab")] kbUnused [1],
        ∃ f ∈ kbUnused, f.page_name = some r.page_name ∧ f.keywords ≠ []) ∧
    (∀ r ∈ lexPredict kbUnused ixUnused "ab",
        ∃ f ∈ kbUnused, f.page_name = some r.page_name ∧ f.keywords ≠ []) :=
  claim_C7_theorem kbUnused [("p", "ab")] [1] ixUnused "ab" rfl rfl rfl (by decide)

/- ---------------------------------------------------------------- -/
/- Claim C8. -/

/-- Claim C8, counterexample: page p has keywords [zz, ab] and the query is
xabx.  The keyword ab matches the query (ab occurs inside xabx), so the
claim says ab is reported; but the reporting loop only tests the
direction word-inside-keyword, finds nothing, and falls back to the
FIRST keyword zz. -/
theorem claim_C8_counterexample :
    prepareKeywordIndex kbTwoKw = Except.ok ixTwoKw ∧
    (lexPredict kbTwoKw ixTwoKw "xabx").map (fun r => r.keyword) = ["zz"] ∧
    specMatchedKeyword (queryWords "xabx") ["zz", "ab"] = "ab" :=
  ⟨rfl, by decide, by decide⟩

/-- Claim C8 as amended: the reported keyword is the first keyword of the
page such that some query word occurs INSIDE the case-folded keyword
(one containment direction only, unlike the two-direction scoring
test); when no keyword qualifies, the first keyword of the page is
reported (the empty string when the page has none). -/
theorem claim_C8_theorem (feats : List RawFeature) (ix : LexIndex) (q : String)
    (r : MatchResult) (hix : prepareKeywordIndex feats = .ok ix)
    (hr : r ∈ lexPredict feats ix q) :
    (∀ k, ((alookup ix.page_keywords r.page_name).getD []).find?
          (fun k2 => (queryWords q).any (fun w => substrOf w (lowerStr k2))) = some k →
        k ≠ "" → r.keyword = k) ∧
    (((alookup ix.page_keywords r.page_name).getD []).find?
          (fun k2 => (queryWords q).any (fun w => substrOf w (lowerStr k2))) = none →
      r.keyword = ((alookup ix.page_keywords r.page_name).getD []).headD "") := by
  rcases mem_lexPredict feats ix q r hr with ⟨e, he, rfl⟩
  constructor
  · intro k hfind hk
    show matchedKeyword (queryWords q) ((alookup ix.page_keywords e.1).getD []) = k
    have hfind2 : ((alookup ix.page_keywords e.1).getD []).find?
        (fun k2 => (queryWords q).any (fun w => substrOf w (lowerStr k2))) = some k := hfind
    simp only [matchedKeyword, hfind2]
    rw [if_neg]
    intro hand
    exact hk hand.1
  · intro hfind
    show matchedKeyword (queryWords q) ((alookup ix.page_keywords e.1).getD []) =
      ((alookup ix.page_keywords e.1).getD []).headD ""
    have hfind2 : ((alookup ix.page_keywords e.1).getD []).find?
        (fun k2 => (queryWords q).any (fun w => substrOf w (lowerStr k2))) = none := hfind
    simp only [matchedKeyword, hfind2]
    by_cases hkws : ((alookup ix.page_keywords e.1).getD []) = []
    · rw [hkws]
      simp
    · simp [hkws]

/-- Claim C8, witness: on the one-page catalog with query k the qualifying
keyword k is found and reported. -/
theorem claim_C8_witness :
    (∀ k, ((alookup ixOne.page_keywords ("p" : String)).getD []).find?
          (fun k2 => (queryWords "k").any (fun w => substrOf w (lowerStr k2))) = some k →
        k ≠ "" →
        ({ page_name := "p", keyword := "k",
           similarity_score := ((1 : Nat) : ℚ) / ((max (queryWords "k").length 1 : Nat) : ℚ),
           description := "" } : MatchResult).keyword = k) ∧
    (((alookup ixOne.page_keywords ("p" : String)).getD []).find?
          (fun k2 => (queryWords "k").any (fun w => substrOf w (lowerStr k2))) = none →
      ({ page_name := "p", keyword := "k",
         similarity_score := ((1 : Nat) : ℚ) / ((max (queryWords "k").length 1 : Nat) : ℚ),
         description := "" } : MatchResult).keyword =
        ((alookup ixOne.page_keywords ("p" : String)).getD []).headD "") := by
  have hm : ({ page_name := "p", keyword := "k",
               similarity_score := ((1 : Nat) : ℚ) / ((max (queryWords "k").length 1 : Nat) : ℚ),
               description := "" } : MatchResult) ∈ lexPredict kbOne ixOne "k" :=
    List.Mem.head _
  exact claim_C8_theorem kbOne ixOne "k" _ rfl hm

/- ---------------------------------------------------------------- -/
/- Claim C10. -/

/-- Claim C10, confirmed: when at least one (query word, keyword) match
exists, every returned page has raw hit count at least 1, page names are
pairwise distinct, zero-hit pages are omitted entirely, and the result
length is min(5, number of pages with a hit) — possibly fewer than five
even when the catalog has five or more pages. -/
theorem claim_C10_theorem (feats : List RawFeature) (ix : LexIndex) (q : String)
    (hix : prepareKeywordIndex feats = .ok ix)
    (hmatch : ∃ w ∈ queryWords q, ∃ e ∈ ix.keyword_to_page, wordMatch w e.1 = true) :
    (∀ r ∈ lexPredict feats ix q, 1 ≤ rawHits feats r.page_name (queryWords q)) ∧
    ((lexPredict feats ix q).map (fun r => r.page_name)).Nodup ∧
    (∀ p, rawHits feats p (queryWords q) = 0 →
      p ∉ (lexPredict feats ix q).map (fun r => r.page_name)) ∧
    (lexPredict feats ix q).length =
      min 5 (pageScores ix.keyword_to_page (queryWords q)).length := by
  have hne : pageScores ix.keyword_to_page (queryWords q) ≠ [] := by
    rcases hmatch with ⟨w, hw, e, he, hm2⟩
    have hnee : e.2 ≠ [] :=
      prepareKeywordIndexAux_ktp_ne feats _ ix hix
        (fun e3 he3 => absurd he3 (List.not_mem_nil e3)) e he
    rcases List.exists_mem_of_ne_nil e.2 hnee with ⟨p0, hp0⟩
    have hwsum : 1 ≤ wSum ix.keyword_to_page w p0 := by
      have hmemf : e ∈ ix.keyword_to_page.filter (fun e2 => wordMatch w e2.1) :=
        List.mem_filter.mpr ⟨he, hm2⟩
      have hcount : 0 < e.2.count p0 := List.count_pos_iff.mpr hp0
      have hmm : e.2.count p0 ∈
          (ix.keyword_to_page.filter (fun e2 => wordMatch w e2.1)).map
            (fun e2 => e2.2.count p0) :=
        List.mem_map_of_mem _ hmemf
      have hle := List.le_sum_of_mem hmm
      simp only [wSum]
      omega
    have hhits : 1 ≤ hitsVia ix.keyword_to_page p0 (queryWords q) := by
      have hmm : wSum ix.keyword_to_page w p0 ∈
          (queryWords q).map (fun w2 => wSum ix.keyword_to_page w2 p0) :=
        List.mem_map_of_mem _ hw
      have hle := List.le_sum_of_mem hmm
      simp only [hitsVia]
      omega
    intro h0
    have hchar := pageScores_lookup ix.keyword_to_page (queryWords q) p0
    rw [h0] at hchar
    have h1 : (none : Option Nat) =
        optCount (hitsVia ix.keyword_to_page p0 (queryWords q)) := hchar
    have h2 := (optCount_eq_none_iff _).mp h1.symm
    omega
  have heff : effScores ix (queryWords q) =
      pageScores ix.keyword_to_page (queryWords q) := by
    simp only [effScores]
    rw [if_neg]
    intro hemp
    exact hne (List.isEmpty_iff.mp hemp)
  refine ⟨?_, ?_, ?_, ?_⟩
  · intro r hr
    rcases mem_lexPredict feats ix q r hr with ⟨e, he, rfl⟩
    rw [heff] at he
    have h2 := (mem_pageScores_hits _ _ e he).1
    have h3 := (mem_pageScores_hits _ _ e he).2
    have h4 := hitsVia_eq_rawHits feats ix hix e.1 (queryWords q)
    show 1 ≤ rawHits feats e.1 (queryWords q)
    omega
  · have hn0 : ((pageScores ix.keyword_to_page (queryWords q)).map (fun e => e.1)).Nodup :=
      List.pairwise_map.mpr (pageScores_nodupKeys ix.keyword_to_page (queryWords q))
    have hperm : List.Perm
        ((sortDesc (effScores ix (queryWords q))).map (fun e => e.1))
        ((pageScores ix.keyword_to_page (queryWords q)).map (fun e => e.1)) := by
      rw [heff]
      exact (sortDesc_perm _).map _
    have hn1 : ((sortDesc (effScores ix (queryWords q))).map (fun e => e.1)).Nodup :=
      hperm.nodup_iff.mpr hn0
    have hsub : List.Sublist
        (((sortDesc (effScores ix (queryWords q))).take 5).map (fun e => e.1))
        ((sortDesc (effScores ix (queryWords q))).map (fun e => e.1)) :=
      (List.take_sublist 5 _).map _
    have hn2 := List.Nodup.sublist hsub hn1
    simp only [lexPredict, List.map_map]
    exact hn2
  · intro p hp0 hpmem
    rcases List.mem_map.mp hpmem with ⟨r, hr, hpn⟩
    rcases mem_lexPredict feats ix q r hr with ⟨e, he, rfl⟩
    rw [heff] at he
    have h2 := (mem_pageScores_hits _ _ e he).1
    have h3 := (mem_pageScores_hits _ _ e he).2
    have h4 := hitsVia_eq_rawHits feats ix hix e.1 (queryWords q)
    have h5 : e.1 = p := hpn
    rw [← h5] at hp0
    omega
  · rw [lexPredict_length, heff]

/-- Claim C10, witness: five pages, a query matching exactly one — the
result has a single entry although the catalog has five pages. -/
theorem claim_C10_witness :
    (∀ r ∈ lexPredict kbFive ixFive "aa", 1 ≤ rawHits kbFive r.page_name (queryWords "aa")) ∧
    ((lexPredict kbFive ixFive "aa").map (fun r => r.page_name)).Nodup ∧
    (∀ p, rawHits kbFive p (queryWords "aa") = 0 →
      p ∉ (lexPredict kbFive ixFive "aa").map (fun r => r.page_name)) ∧
    (lexPredict kbFive ixFive "aa").length =
      min 5 (pageScores ixFive.keyword_to_page (queryWords "aa")).length :=
  claim_C10_theorem kbFive ixFive "aa" rfl (by decide)
